import Mathlib

/-!
Verification of the adaptive session-selection and progress-tracking engine
of the Swedish vocabulary game.

The development shallowly embeds the Python sources:
  * game/app/words.py      — answer normalization (format_text), the inflection
    sampler, the bucketed selector and the round expander,
  * game/app/utilities.py  — the Settings and Status session state,
  * game/app/gui/answers.py and game/app/gui/questions.py — answer checking
    and the retest transition,
  * game/app/game.py       — the commit guard.

Conventions of the embedding:
  * pandas DataFrames become lists of records; a NULL cell (NaN from the
    LEFT JOIN) becomes Option.none.
  * machine floats storing marks 0/1 and their means become exact rationals;
    an undefined mean (mean of an empty selection, NaN in pandas) is none.
  * pandas sort_values is modelled by an explicit comparison sort
    (List.insertionSort); every property proved below is independent of how
    the sort orders tied keys, and NaN keys sort last as in pandas
    (na_position defaults to last), modelled by embedding Option into
    WithTop.
  * every random draw (one inflection per group, the row shuffle, the filler
    sample) is an explicit argument; theorems quantify over all draws that a
    uniform sampler could produce.
  * Python exceptions that the claims talk about are modelled with Except.
-/

/-! ### Answer normalization: format_text (game/app/words.py lines 23-44)

The Python code runs, in order:
  1. re.sub with the pattern matching any character that is not in the digit
     class, the word class, a space or a dash, replacing it by nothing;
  2. re.sub replacing every run of two or more whitespace characters by one
     space;
  3. str.lower, then str.strip.

Python's regex classes and str.lower are Unicode-aware.  The embedding
models their restriction to code points up to U+00FF (Basic Latin and
Latin-1), which covers every string handled in this development, including
the Swedish letters.  In that range the word class of Python's re module is:
ASCII digits 48-57, ASCII letters 65-90 and 97-122, the underscore 95, the
signs 170, 178, 179, 181, 185, 186, 188, 189, 190 (feminine ordinal,
superscripts, micro sign, masculine ordinal, vulgar fractions: all
alphanumeric for Python), and the Latin-1 letters 192-255 without the
multiplication sign 215 and the division sign 247. -/
def pyWordChar (c : Char) : Bool :=
  let n := c.toNat
  (48 ≤ n && n ≤ 57) || (65 ≤ n && n ≤ 90) || (97 ≤ n && n ≤ 122) || n == 95 ||
  n == 170 || n == 178 || n == 179 || n == 181 || n == 185 || n == 186 ||
  (188 ≤ n && n ≤ 190) ||
  (192 ≤ n && n ≤ 255 && n != 215 && n != 247)

/-- Character kept by the first substitution of format_text: a word
character, a space (code 32) or a dash (code 45). -/
def keepChar (c : Char) : Bool :=
  pyWordChar c || c.toNat == 32 || c.toNat == 45

/-- Lower-casing of str.lower restricted to code points up to U+00FF: the
ASCII uppercase letters 65-90 and the Latin-1 uppercase letters 192-222
without the multiplication sign 215 move down by adding 32; everything else
is unchanged. -/
def pyLower (c : Char) : Char :=
  let n := c.toNat
  if (65 ≤ n ∧ n ≤ 90) ∨ (192 ≤ n ∧ n ≤ 222 ∧ n ≠ 215) then Char.ofNat (n + 32)
  else c

/-- Second substitution of format_text: replace every run of two or more
whitespace characters by a single space.  After the first substitution the
only whitespace character left is the space itself, so this collapses runs
of spaces. -/
def collapseSpaces : List Char → List Char
  | [] => []
  | [c] => [c]
  | c :: d :: rest =>
    if c.toNat = 32 ∧ d.toNat = 32 then collapseSpaces (d :: rest)
    else c :: collapseSpaces (d :: rest)

/-- Leading part of str.strip: drop leading spaces (after the substitutions
the only whitespace character left is the space). -/
def dropLeadingSpaces (l : List Char) : List Char :=
  l.dropWhile (fun c => c.toNat == 32)

/-- The str.strip step: drop leading and trailing spaces. -/
def stripSpaces (l : List Char) : List Char :=
  (dropLeadingSpaces ((dropLeadingSpaces l).reverse)).reverse

/-- Embedding of format_text (game/app/words.py lines 23-44): remove every
character outside the kept class, collapse runs of whitespace to a single
space, lower-case, strip. -/
def format_text (s : String) : String :=
  String.mk (stripSpaces ((collapseSpaces (s.toList.filter keepChar)).map pyLower))

/-- Modelled from the claim's words, for comparison with format_text: the
claim says the normalization removes exactly the characters that are not a
letter, digit, space or dash — in particular it would remove the
underscore, which Python's word class keeps. -/
def format_text_claimed (s : String) : String :=
  String.mk (stripSpaces ((collapseSpaces (s.toList.filter
    (fun c => c.isAlphanum || c.toNat == 32 || c.toNat == 45))).map pyLower))

/-! ### Session state (game/app/utilities.py)

WordPair objects are identified by their integer word id: the dataclass
hashes and compares on its identifying fields, so a set of WordPairs is
faithfully modelled by a set of ids. -/

/-- One pending mark row as built by Answers.__add_mark
(game/app/gui/answers.py lines 78-92): word id, mark, translation direction
and timestamp. -/
structure MarkRecord where
  wordId : ℕ
  mark : ℕ
  translationDirection : ℕ
  timestamp : ℚ
deriving DecidableEq, Repr

/-- The Status dataclass (game/app/utilities.py lines 83-137).  The Python
incorrect_answers field is a set; it is modelled as a list with set
semantics (setAdd below), whose no-duplicates invariant is proved rather
than assumed. -/
structure Status where
  incorrect_answers : List ℕ
  marks : List MarkRecord
  question_number : ℕ
  retest : Bool
deriving DecidableEq, Repr

/-- Python set.add on the list model: insert only when absent. -/
def setAdd (l : List ℕ) (x : ℕ) : List ℕ :=
  if x ∈ l then l else l ++ [x]

/-- Answers.__record_incorrect_answer (game/app/gui/answers.py lines
39-46): add the current word pair to the incorrect set, only when not in a
retest. -/
def record_incorrect_answer (st : Status) (w : ℕ) : Status :=
  if st.retest then st
  else { st with incorrect_answers := setAdd st.incorrect_answers w }

/-- Answers.__add_mark (game/app/gui/answers.py lines 78-92): append a mark
row to the pending list, only when not in a retest. -/
def add_mark (st : Status) (w : ℕ) (mark : ℕ) (dir : ℕ) (ts : ℚ) : Status :=
  if st.retest then st
  else { st with marks := st.marks ++ [⟨w, mark, dir, ts⟩] }

/-- Answers.check_answer (game/app/gui/answers.py lines 25-37), state part:
on a correct submission record mark 1; on an incorrect one record mark 0
and the word into the incorrect set. -/
def check_answer (st : Status) (w : ℕ) (correct : Bool) (dir : ℕ) (ts : ℚ) :
    Status :=
  if correct then add_mark st w 1 dir ts
  else record_incorrect_answer (add_mark st w 0 dir ts) w

/-- Questions.move_to_next (game/app/gui/questions.py line 64), state part:
advance the question index. -/
def move_to_next (st : Status) : Status :=
  { st with question_number := st.question_number + 1 }

/-- One full answer submission: check the answer, then move on. -/
def submit_answer (st : Status) (w : ℕ) (correct : Bool) (dir : ℕ) (ts : ℚ) :
    Status :=
  move_to_next (check_answer st w correct dir ts)

/-- A sequence of answer submissions folded over the state. -/
def run_submissions (st : Status) : List (ℕ × Bool × ℕ × ℚ) → Status
  | [] => st
  | (w, c, d, t) :: rest => run_submissions (submit_answer st w c d t) rest

/-- The Settings dataclass (game/app/utilities.py lines 16-80), restricted
to the fields the session claims use; word pairs are identified by id. -/
structure Settings where
  word_pairs : List ℕ
  n_rounds : ℕ
  questions_per_round : ℕ
  total_questions : ℕ
deriving DecidableEq, Repr

/-- Settings.set_question_stats (game/app/utilities.py lines 52-56):
total_questions is the word list length, questions_per_round its quotient
by n_rounds (int of a float division of non-negative numbers truncates,
matching Nat division). -/
def set_question_stats (s : Settings) : Settings :=
  { s with questions_per_round := s.word_pairs.length / s.n_rounds,
           total_questions := s.word_pairs.length }

/-- Settings.set_up_retest (game/app/utilities.py lines 64-72): install the
new word list, fix n_rounds at 2, recompute the question totals. -/
def settings_set_up_retest (s : Settings) (incorrect_answers : List ℕ) :
    Settings :=
  set_question_stats { s with word_pairs := incorrect_answers, n_rounds := 2 }

/-- Status.set_up_retest (game/app/utilities.py lines 133-136): switch the
retest flag on and reset the question index. -/
def status_set_up_retest (st : Status) : Status :=
  { st with retest := true, question_number := 0 }

/-- Questions.__create_retest (game/app/gui/questions.py lines 91-94): the
new word list is the materialized incorrect set repeated twice — the Python
expression list(incorrect_answers) * 2 concatenates the list with itself
with no reshuffle. -/
def create_retest (s : Settings) (st : Status) : Settings × Status :=
  (settings_set_up_retest s (st.incorrect_answers ++ st.incorrect_answers),
   status_set_up_retest st)

/-- Status.commit_marks_to_database (game/app/utilities.py lines 99-109):
append the buffered mark rows to the database table; the in-memory marks
list is not touched.  The database is modelled as the list of rows of the
marks table. -/
def commit_marks_to_database (db : List MarkRecord) (st : Status) :
    List MarkRecord × Status :=
  (db ++ st.marks, st)

/-- Game.commit_marks (game/app/game.py lines 69-72): commit unless the
no_commit flag is set. -/
def commit_marks (no_commit : Bool) (db : List MarkRecord) (st : Status) :
    List MarkRecord × Status :=
  if no_commit then (db, st) else commit_marks_to_database db st

/-! ### Round expander: GameWords.return_word_pairs
(game/app/words.py lines 330-348)

The loop keeps one mutable list, shuffles it in place before each round and
appends a copy to the output.  The shuffle is a draw from the shared random
source; it is passed in as a function from the round index and the current
list to the shuffled list, quantified over all permutation-producing
draws. -/

/-- The body of the rounds loop, starting at round index i with current
list cur and k rounds still to play. -/
def expandFrom {α : Type} (shuffle : ℕ → List α → List α) :
    ℕ → List α → ℕ → List α
  | _, _, 0 => []
  | i, cur, Nat.succ k =>
    let cur' := shuffle i cur
    cur' ++ expandFrom shuffle (i + 1) cur' k

/-- GameWords.return_word_pairs, expansion part: repeat the resolved word
list for n_rounds rounds, shuffling before each round. -/
def return_word_pairs {α : Type} (round_words : List α) (n_rounds : ℕ)
    (shuffle : ℕ → List α → List α) : List α :=
  expandFrom shuffle 0 round_words n_rounds

/-- A concrete realizable shuffle draw: reverse the list in round 0, leave
it alone afterwards.  Used to exhibit outputs a genuine shuffling
implementation can produce. -/
def revFirstShuffle (i : ℕ) (l : List ℕ) : List ℕ :=
  if i = 0 then l.reverse else l

/-! ### Catalogue, sampler and bucketed selector (game/app/words.py)

One catalogue row is one (inflection, historical mark) pair from the
LEFT JOIN of the words query: inflection id, its word group, the mark and
its timestamp (both none for an inflection with no marks, which the join
still returns once). -/

/-- One row of the fetched words DataFrame. -/
structure WordRow where
  id : ℕ
  ordgrupp : ℕ
  betyg : Option ℚ
  tid : Option ℚ
deriving DecidableEq, Repr

/-- One row of the statistics table built by select_inflection. -/
structure InflectionStat where
  ordgrupp : ℕ
  id : ℕ
  frequency : ℚ
  mean_score : Option ℚ
  mean_score_last_3 : Option ℚ
deriving DecidableEq, Repr

/-- Embed an optional key into WithTop so that none compares above every
value: pandas sort_values places NaN keys last, and a NaN filter
comparison is false. -/
def optTop (o : Option ℚ) : WithTop ℚ :=
  match o with
  | none => ⊤
  | some x => (x : WithTop ℚ)

/-- Mean of a pandas Series: skip the NaN entries; the mean of nothing is
NaN (none). -/
def pandasMean (marks : List (Option ℚ)) : Option ℚ :=
  let vals := marks.filterMap (fun o => o)
  if vals.length = 0 then none else some (vals.sum / (vals.length : ℚ))

/-- The select_inflection closure (game/app/words.py lines 172-201) for
word group g, with the uniform draw of one of the group's inflection ids
passed in as drawId.  For the chosen inflection it computes
  frequency      — the Python code sums the mark values that are 0 or 1
                   (a NaN mark is not in the tuple and contributes
                   nothing), which is the number of correct answers, not
                   the number of answers;
  mean_score     — mean of all the inflection's marks, NaN entries
                   skipped;
  mean_score_last_3 — rows sorted by timestamp ascending (NaN timestamps
                   last), mean of the marks of the last up-to-3 rows. -/
def select_inflection (rows : List WordRow) (g : ℕ) (drawId : ℕ) :
    InflectionStat :=
  let group := rows.filter (fun r => r.ordgrupp == g)
  let chosen := group.filter (fun r => r.id == drawId)
  let marks := chosen.map (fun r => r.betyg)
  let frequency :=
    (marks.map (fun o =>
      match o with
      | some v => if v == 0 || v == 1 then v else 0
      | none => 0)).sum
  let mean_score := pandasMean marks
  let sorted := List.insertionSort
    (fun a b : WordRow => optTop a.tid ≤ optTop b.tid) chosen
  let sortedMarks := sorted.map (fun r => r.betyg)
  let mean_score_last_3 :=
    pandasMean (sortedMarks.drop (sortedMarks.length - 3))
  ⟨g, drawId, frequency, mean_score, mean_score_last_3⟩

/-- The distinct word groups of the catalogue, ascending, as produced by
the pandas groupby over ordgrupp. -/
def groupsOf (words : List WordRow) : List ℕ :=
  List.insertionSort (fun a b => a ≤ b) (words.map (fun r => r.ordgrupp)).dedup

/-- The statistics table of GameWords.__select_words (game/app/words.py
lines 203-207): one select_inflection row per distinct group, the per-group
inflection draw supplied by the function draw. -/
def sample_stats (words : List WordRow) (draw : ℕ → ℕ) :
    List InflectionStat :=
  (groupsOf words).map (fun g => select_inflection words g (draw g))

/-- The bucket-1 filter of GameWords.__select_lowest_scoring: the pandas
comparison mean_score_last_3 < 1 is false on NaN, so a statistic with no
marks never qualifies. -/
def struggling_filter (r : InflectionStat) : Bool :=
  match r.mean_score_last_3 with
  | some q => decide (q < 1)
  | none => false

/-- GameWords.__select_lowest_scoring (game/app/words.py lines 232-253),
selection part: filter to mean_score_last_3 < 1, sort ascending by
mean_score alone, take the first words_per_group rows. -/
def select_lowest_scoring (inflections : List InflectionStat)
    (words_per_group : ℕ) : List InflectionStat :=
  (List.insertionSort
      (fun a b : InflectionStat => optTop a.mean_score ≤ optTop b.mean_score)
      (inflections.filter struggling_filter)).take words_per_group

/-- Lexicographic order on the pair of mean_score_last_3 and mean_score,
as the claim describes the bucket-1 sort key. -/
def pairLE (a b : InflectionStat) : Prop :=
  optTop a.mean_score_last_3 < optTop b.mean_score_last_3 ∨
    (a.mean_score_last_3 = b.mean_score_last_3 ∧
      optTop a.mean_score ≤ optTop b.mean_score)

instance : DecidableRel pairLE := fun a b => by
  unfold pairLE; infer_instance

/-- Modelled from the claim's words, for comparison with
select_lowest_scoring: sort the filtered rows ascending by the pair of
mean_score_last_3 and mean_score, ties on the recent mean broken by the
overall mean. -/
def select_lowest_scoring_claimed (inflections : List InflectionStat)
    (words_per_group : ℕ) : List InflectionStat :=
  (List.insertionSort pairLE
      (inflections.filter struggling_filter)).take words_per_group

/-- The unselected_word_groups list comprehensions (game/app/words.py
lines 251-253 and 269-274): all group values of the words table, in row
order and with repetitions, that are not among the claimed groups. -/
def unselected_after (words : List WordRow) (claimed : List ℕ) : List ℕ :=
  (words.map (fun r => r.ordgrupp)).filter (fun g => decide (g ∉ claimed))

/-- GameWords.__select_lowest_frequency (game/app/words.py lines 255-268),
selection part: restrict to statistics of still-unselected groups, sort
ascending by frequency, take the first words_per_group rows. -/
def select_lowest_frequency (inflections : List InflectionStat)
    (unselected : List ℕ) (words_per_group : ℕ) : List InflectionStat :=
  (List.insertionSort
      (fun a b : InflectionStat => a.frequency ≤ b.frequency)
      (inflections.filter (fun r => decide (r.ordgrupp ∈ unselected)))).take
    words_per_group

/-- The drop_duplicates step (subset ordgrupp, keep first) on the shuffled
remaining rows, written with an accumulator of groups already seen. -/
def dedupByGrpAux : List WordRow → List ℕ → List WordRow
  | [], _ => []
  | r :: rest, seen =>
    if r.ordgrupp ∈ seen then dedupByGrpAux rest seen
    else r :: dedupByGrpAux rest (r.ordgrupp :: seen)

/-- Keep the first row of each word group, in list order. -/
def dedupByGrp (l : List WordRow) : List WordRow :=
  dedupByGrpAux l []

/-- GameWords.__add_random_words (game/app/words.py lines 276-293).  The
code computes sample_size as the minimum of the missing count and the
number of remaining ROWS, shuffles the remaining rows (the shuffled order
is the draw argument shuffled), keeps one row per group, and then samples
sample_size ids from the deduplicated id column.  pandas Series.sample
raises ValueError when asked for more elements than the population
without replacement, which happens exactly when sample_size exceeds the
number of rows left after deduplication; that exception is the error
value.  A successful sample of sample_size ids without replacement is the
first sample_size entries of a permutation drawnIds of the deduplicated id
column. -/
def add_random_words (words : List WordRow) (unselected : List ℕ)
    (selected : List ℕ) (n_words : ℕ) (shuffled : List WordRow)
    (drawnIds : List ℕ) : Except Unit (List ℕ) :=
  let remaining := words.filter (fun r => decide (r.ordgrupp ∈ unselected))
  let n_missing := n_words - selected.length
  let sample_size := min n_missing remaining.length
  let deduped := dedupByGrp shuffled
  if sample_size ≤ deduped.length then
    Except.ok (selected ++ drawnIds.take sample_size)
  else Except.error ()

/-- Bucket 1 of the pipeline, with words_per_group = n_words // 3 as in
GameWords.__select_words (game/app/words.py line 203). -/
def lowsOf (words : List WordRow) (draw : ℕ → ℕ) (n_words : ℕ) :
    List InflectionStat :=
  select_lowest_scoring (sample_stats words draw) (n_words / 3)

/-- Unselected groups after bucket 1. -/
def unsel1Of (words : List WordRow) (draw : ℕ → ℕ) (n_words : ℕ) : List ℕ :=
  unselected_after words ((lowsOf words draw n_words).map (fun r => r.ordgrupp))

/-- Bucket 2 of the pipeline. -/
def lowfreqOf (words : List WordRow) (draw : ℕ → ℕ) (n_words : ℕ) :
    List InflectionStat :=
  select_lowest_frequency (sample_stats words draw)
    (unsel1Of words draw n_words) (n_words / 3)

/-- Unselected groups after buckets 1 and 2. -/
def unsel2Of (words : List WordRow) (draw : ℕ → ℕ) (n_words : ℕ) : List ℕ :=
  unselected_after words
    ((lowsOf words draw n_words).map (fun r => r.ordgrupp) ++
      (lowfreqOf words draw n_words).map (fun r => r.ordgrupp))

/-- The selected_words union of GameWords.__select_game_words
(game/app/words.py lines 227-229): the Python set union of the two buckets'
id columns, modelled as the deduplicated concatenation (the claims proved
about it do not depend on the iteration order of a Python set). -/
def selectedOf (words : List WordRow) (draw : ℕ → ℕ) (n_words : ℕ) :
    List ℕ :=
  ((lowsOf words draw n_words).map (fun r => r.id) ++
    (lowfreqOf words draw n_words).map (fun r => r.id)).dedup

/-- The remaining rows handed to the random filler. -/
def remainingOf (words : List WordRow) (draw : ℕ → ℕ) (n_words : ℕ) :
    List WordRow :=
  words.filter (fun r => decide (r.ordgrupp ∈ unsel2Of words draw n_words))

/-- The full selector pipeline GameWords.__select_words followed by
__select_game_words and __add_random_words: from the catalogue and the
random draws to the session's list of inflection ids, or the pandas
sampling error. -/
def select_game_words (words : List WordRow) (draw : ℕ → ℕ) (n_words : ℕ)
    (shuffled : List WordRow) (drawnIds : List ℕ) : Except Unit (List ℕ) :=
  add_random_words words (unsel2Of words draw n_words)
    (selectedOf words draw n_words) n_words shuffled drawnIds

/-- The word group an inflection id belongs to, read off the catalogue. -/
def grpOf (words : List WordRow) (i : ℕ) : Option ℕ :=
  (words.find? (fun r => r.id == i)).map (fun r => r.ordgrupp)

/-! ### Concrete inputs used by the counterexamples, code-bug evaluations
and witnesses. -/

/-- A statistic with a middling recent mean but low overall mean. -/
def statA : InflectionStat := ⟨1, 1, 5, some (1/2), some (1/2)⟩

/-- A statistic with the worst possible recent mean but high overall mean:
the claimed pair sort ranks it first, the code's sort ranks it last. -/
def statB : InflectionStat := ⟨2, 2, 5, some (9/10), some 0⟩

/-- One inflection (id 1, group 7) answered three times: marks 0, 0, 1, all
non-null. -/
def wordsC2 : List WordRow :=
  [⟨1, 7, some 0, some 1⟩, ⟨1, 7, some 0, some 2⟩, ⟨1, 7, some 1, some 3⟩]

/-- Catalogue with three word groups: group 1 struggling (one mark 0),
group 2 never answered, group 3 answered four times, all correct, so its
four join rows stay unclaimed by the first two buckets. -/
def wordsC3 : List WordRow :=
  [⟨11, 1, some 0, some 1⟩, ⟨21, 2, none, none⟩,
   ⟨31, 3, some 1, some 1⟩, ⟨31, 3, some 1, some 2⟩,
   ⟨31, 3, some 1, some 3⟩, ⟨31, 3, some 1, some 4⟩]

/-- Per-group inflection draw for wordsC3: each group has a single
inflection id, so the draw is forced. -/
def drawC3 : ℕ → ℕ := fun g => if g = 1 then 11 else if g = 2 then 21 else 31

/-- The identity shuffle draw of the remaining rows for wordsC3. -/
def shuffledC3 : List WordRow := remainingOf wordsC3 drawC3 5

/-- Catalogue with three word groups where group 3 has two inflections,
ids 31 and 32. -/
def wordsC10 : List WordRow :=
  [⟨11, 1, some 0, some 1⟩, ⟨21, 2, none, none⟩,
   ⟨31, 3, some 1, some 1⟩, ⟨32, 3, some 1, some 2⟩]

/-- Per-group inflection draw for wordsC10: the sampler picks id 31 for
group 3. -/
def drawC10 : ℕ → ℕ := fun g => if g = 3 then 31 else if g = 2 then 21 else 11

/-- A shuffle draw of the remaining rows for wordsC10 that puts the row of
inflection 32 first, so drop_duplicates keeps id 32 for group 3. -/
def shuffledC10 : List WordRow :=
  [⟨32, 3, some 1, some 2⟩, ⟨31, 3, some 1, some 1⟩]

/-- Catalogue for the witness of the no-duplicate-groups theorem. -/
def wordsC4w : List WordRow :=
  [⟨11, 1, some 0, some 1⟩, ⟨21, 2, none, none⟩,
   ⟨31, 3, some 1, some 1⟩, ⟨32, 3, some 1, some 2⟩]

/-- Per-group inflection draw for wordsC4w. -/
def drawC4w : ℕ → ℕ := fun g => if g = 3 then 31 else if g = 2 then 21 else 11

/-- The identity shuffle draw of the remaining rows for wordsC4w. -/
def shuffledC4w : List WordRow := remainingOf wordsC4w drawC4w 3

/-! ### Helper lemmas about the normalization pipeline. -/

theorem char_toNat_ofNat (n : ℕ) (h : n < 55296) : (Char.ofNat n).toNat = n := by
  have hv : Nat.isValidChar n := Or.inl h
  simp only [Char.ofNat, dif_pos hv, Char.ofNatAux, Char.toNat]
  rfl

theorem keepChar_pyLower (c : Char) (h : keepChar c = true) :
    keepChar (pyLower c) = true := by
  simp only [pyLower]
  split
  case isTrue hc =>
    have hr : (Char.ofNat (c.toNat + 32)).toNat = c.toNat + 32 :=
      char_toNat_ofNat _ (by omega)
    simp only [keepChar, pyWordChar, hr, Bool.or_eq_true, Bool.and_eq_true,
      decide_eq_true_eq, beq_iff_eq, bne_iff_ne, ne_eq]
    omega
  case isFalse hc => exact h

theorem pyLower_toNat_32 (c : Char) : (pyLower c).toNat = 32 ↔ c.toNat = 32 := by
  simp only [pyLower]
  split
  case isTrue hc =>
    have hr : (Char.ofNat (c.toNat + 32)).toNat = c.toNat + 32 :=
      char_toNat_ofNat _ (by omega)
    rw [hr]
    omega
  case isFalse hc => exact Iff.rfl

theorem mem_collapseSpaces {a : Char} : ∀ {l : List Char},
    a ∈ collapseSpaces l → a ∈ l := by
  intro l
  induction l using collapseSpaces.induct with
  | case1 => simp [collapseSpaces]
  | case2 c => simp [collapseSpaces]
  | case3 c d rest hcd ih =>
    rw [collapseSpaces, if_pos hcd]
    intro h
    exact List.mem_cons_of_mem c (ih h)
  | case4 c d rest hcd ih =>
    rw [collapseSpaces, if_neg hcd]
    intro h
    rcases List.mem_cons.mp h with h | h
    · exact h ▸ List.mem_cons_self _ _
    · exact List.mem_cons_of_mem c (ih h)

theorem head?_collapseSpaces (d : Char) (rest : List Char) (hd : d.toNat ≠ 32) :
    (collapseSpaces (d :: rest)).head? = some d := by
  cases rest with
  | nil => rfl
  | cons e r =>
    rw [collapseSpaces, if_neg (by exact fun hc => hd hc.1)]
    rfl

theorem chain'_collapseSpaces : ∀ l : List Char,
    (collapseSpaces l).Chain' (fun a b => ¬(a.toNat = 32 ∧ b.toNat = 32)) := by
  intro l
  induction l using collapseSpaces.induct with
  | case1 => simp [collapseSpaces]
  | case2 c => simp [collapseSpaces]
  | case3 c d rest hcd ih =>
    rw [collapseSpaces, if_pos hcd]
    exact ih
  | case4 c d rest hcd ih =>
    rw [collapseSpaces, if_neg hcd]
    refine List.chain'_cons'.mpr ⟨?_, ih⟩
    intro h hh
    by_cases hdsp : d.toNat = 32
    · intro hch
      exact hcd ⟨hch.1, hdsp⟩
    · rw [head?_collapseSpaces d rest hdsp] at hh
      cases hh
      intro hch
      exact hdsp hch.2

theorem head?_dropLeadingSpaces : ∀ (l : List Char) (a : Char),
    (dropLeadingSpaces l).head? = some a → a.toNat ≠ 32 := by
  intro l
  induction l with
  | nil => intro a h; cases h
  | cons c rest ih =>
    intro a h
    rw [dropLeadingSpaces, List.dropWhile_cons] at h
    by_cases hc : c.toNat = 32
    · rw [if_pos (by simpa using hc)] at h
      exact ih a h
    · rw [if_neg (by simpa using hc)] at h
      cases h
      exact hc

theorem getLast?_suffix_ne_nil {B L : List Char} (h : B <:+ L) (hne : B ≠ []) :
    B.getLast? = L.getLast? := by
  obtain ⟨t, ht⟩ := h
  rw [← ht, List.getLast?_append_of_ne_nil t hne]

theorem head?_stripSpaces (l : List Char) (a : Char)
    (h : (stripSpaces l).head? = some a) : a.toNat ≠ 32 := by
  rw [stripSpaces, List.head?_reverse] at h
  have hsuf : dropLeadingSpaces (dropLeadingSpaces l).reverse <:+
      (dropLeadingSpaces l).reverse := List.dropWhile_suffix _
  have hne : dropLeadingSpaces (dropLeadingSpaces l).reverse ≠ [] := by
    intro hnil
    rw [hnil] at h
    cases h
  rw [getLast?_suffix_ne_nil hsuf hne, List.getLast?_reverse] at h
  exact head?_dropLeadingSpaces l a h

theorem getLast?_stripSpaces (l : List Char) (a : Char)
    (h : (stripSpaces l).getLast? = some a) : a.toNat ≠ 32 := by
  rw [stripSpaces, List.getLast?_reverse] at h
  exact head?_dropLeadingSpaces _ a h

theorem mem_stripSpaces {a : Char} {l : List Char} (h : a ∈ stripSpaces l) :
    a ∈ l := by
  rw [stripSpaces, List.mem_reverse] at h
  have h2 := (List.dropWhile_sublist _).mem h
  rw [List.mem_reverse] at h2
  exact (List.dropWhile_sublist _).mem h2

theorem chain'_stripSpaces {l : List Char}
    (h : l.Chain' (fun a b => ¬(a.toNat = 32 ∧ b.toNat = 32))) :
    (stripSpaces l).Chain' (fun a b => ¬(a.toNat = 32 ∧ b.toNat = 32)) := by
  have hsym : ∀ m : List Char,
      m.Chain' (fun a b => ¬(a.toNat = 32 ∧ b.toNat = 32)) →
      m.reverse.Chain' (fun a b => ¬(a.toNat = 32 ∧ b.toNat = 32)) := by
    intro m hm
    rw [List.chain'_reverse]
    exact hm.imp (fun a b hab h2 => hab ⟨h2.2, h2.1⟩)
  rw [stripSpaces]
  refine hsym _ (List.Chain'.suffix ?_ (List.dropWhile_suffix _))
  refine hsym _ (List.Chain'.suffix ?_ (List.dropWhile_suffix _))
  exact h

/-! ### Helper lemmas about the session state machine. -/

theorem nodup_setAdd (l : List ℕ) (x : ℕ) (h : l.Nodup) : (setAdd l x).Nodup := by
  rw [setAdd]
  split
  · exact h
  case isFalse hx => simp [List.nodup_append, h, hx]

theorem submit_incorrect_nodup (st : Status) (w : ℕ) (c : Bool) (d : ℕ) (t : ℚ)
    (h : st.incorrect_answers.Nodup) :
    (submit_answer st w c d t).incorrect_answers.Nodup := by
  by_cases hr : st.retest <;> cases c <;>
    simp [submit_answer, move_to_next, check_answer, record_incorrect_answer,
      add_mark, hr, h, nodup_setAdd _ w h]

theorem run_submissions_nodup (steps : List (ℕ × Bool × ℕ × ℚ)) :
    ∀ st : Status, st.incorrect_answers.Nodup →
      (run_submissions st steps).incorrect_answers.Nodup := by
  induction steps with
  | nil => intro st h; exact h
  | cons step rest ih =>
    intro st h
    obtain ⟨w, c, d, t⟩ := step
    exact ih _ (submit_incorrect_nodup st w c d t h)

/-! ### Helper lemmas about the round expander. -/

theorem expandFrom_parts {α : Type} (shuffle : ℕ → List α → List α)
    (hs : ∀ i m, (shuffle i m).Perm m) :
    ∀ (k i : ℕ) (cur : List α), ∃ rounds : List (List α),
      expandFrom shuffle i cur k = rounds.flatten ∧ rounds.length = k ∧
      ∀ r ∈ rounds, r.Perm cur := by
  intro k
  induction k with
  | zero => intro i cur; exact ⟨[], rfl, rfl, by simp⟩
  | succ k ih =>
    intro i cur
    obtain ⟨rounds, h1, h2, h3⟩ := ih (i + 1) (shuffle i cur)
    refine ⟨shuffle i cur :: rounds, ?_, by simp [h2], ?_⟩
    · simp [expandFrom, h1]
    · intro r hr
      rcases List.mem_cons.mp hr with rfl | hr
      · exact hs i cur
      · exact (h3 r hr).trans (hs i cur)

theorem join_length_of_perms {α : Type} (cur : List α) :
    ∀ rounds : List (List α), (∀ r ∈ rounds, r.Perm cur) →
      rounds.flatten.length = rounds.length * cur.length := by
  intro rounds
  induction rounds with
  | nil => simp
  | cons r rest ih =>
    intro h
    simp only [List.flatten_cons, List.length_append, List.length_cons]
    rw [(h r (List.mem_cons_self _ _)).length_eq,
      ih (fun x hx => h x (List.mem_cons_of_mem _ hx))]
    ring

/-! ### Helper lemmas about the sampler, the buckets and the deduplication. -/

theorem mem_dedupByGrpAux : ∀ (l : List WordRow) (seen : List ℕ) (r : WordRow),
    r ∈ dedupByGrpAux l seen → r ∈ l := by
  intro l
  induction l with
  | nil => intro seen r h; cases h
  | cons x rest ih =>
    intro seen r h
    rw [dedupByGrpAux] at h
    split at h
    · exact List.mem_cons_of_mem x (ih _ r h)
    · rcases List.mem_cons.mp h with rfl | h
      · exact List.mem_cons_self _ _
      · exact List.mem_cons_of_mem x (ih _ r h)

theorem dedupByGrpAux_grps : ∀ (l : List WordRow) (seen : List ℕ),
    ((dedupByGrpAux l seen).map (fun r => r.ordgrupp)).Nodup ∧
    ∀ r ∈ dedupByGrpAux l seen, r.ordgrupp ∉ seen := by
  intro l
  induction l with
  | nil => intro seen; exact ⟨List.nodup_nil, by intro r h; cases h⟩
  | cons x rest ih =>
    intro seen
    rw [dedupByGrpAux]
    split
    case isTrue hx =>
      obtain ⟨h1, h2⟩ := ih seen
      exact ⟨h1, h2⟩
    case isFalse hx =>
      obtain ⟨h1, h2⟩ := ih (x.ordgrupp :: seen)
      constructor
      · rw [List.map_cons, List.nodup_cons]
        refine ⟨?_, h1⟩
        intro hmem
        rcases List.mem_map.mp hmem with ⟨r, hr, hrg⟩
        exact h2 r hr (hrg ▸ List.mem_cons_self _ _)
      · intro r hr
        rcases List.mem_cons.mp hr with rfl | hr
        · exact hx
        · intro hseen
          exact h2 r hr (List.mem_cons_of_mem _ hseen)

theorem nodup_groupsOf (words : List WordRow) : (groupsOf words).Nodup :=
  (List.perm_insertionSort _ _).symm.nodup (List.nodup_dedup _)

theorem mem_groupsOf {words : List WordRow} {g : ℕ} :
    g ∈ groupsOf words ↔ ∃ r ∈ words, r.ordgrupp = g := by
  rw [groupsOf, List.mem_insertionSort, List.mem_dedup, List.mem_map]

theorem sample_stats_map_grp (words : List WordRow) (draw : ℕ → ℕ) :
    (sample_stats words draw).map (fun r => r.ordgrupp) = groupsOf words := by
  rw [sample_stats, List.map_map]
  exact List.map_id _

theorem mem_sample_stats {words : List WordRow} {draw : ℕ → ℕ}
    {st : InflectionStat} (h : st ∈ sample_stats words draw) :
    st.ordgrupp ∈ groupsOf words ∧ st.id = draw st.ordgrupp := by
  rcases List.mem_map.mp h with ⟨g, hg, rfl⟩
  exact ⟨hg, rfl⟩

theorem grpOf_eq {words : List WordRow}
    (hfun : ∀ r ∈ words, ∀ s ∈ words, r.id = s.id → r.ordgrupp = s.ordgrupp)
    {r : WordRow} (hr : r ∈ words) : grpOf words r.id = some r.ordgrupp := by
  have hsome : (words.find? (fun x => x.id == r.id)).isSome :=
    List.find?_isSome.mpr ⟨r, hr, by simp⟩
  obtain ⟨s, hs⟩ := Option.isSome_iff_exists.mp hsome
  have hsmem := List.mem_of_find?_eq_some hs
  have hsid : s.id = r.id := by simpa using List.find?_some hs
  rw [grpOf, hs, Option.map_some']
  exact congrArg some (hfun s hsmem r hr hsid)

theorem mem_lowsOf {words : List WordRow} {draw : ℕ → ℕ} {n_words : ℕ}
    {st : InflectionStat} (h : st ∈ lowsOf words draw n_words) :
    st ∈ sample_stats words draw := by
  rw [lowsOf, select_lowest_scoring] at h
  have h1 := (List.take_sublist _ _).mem h
  have h2 := (List.mem_insertionSort _).mp h1
  exact (List.mem_filter.mp h2).1

theorem mem_lowfreqOf {words : List WordRow} {draw : ℕ → ℕ} {n_words : ℕ}
    {st : InflectionStat} (h : st ∈ lowfreqOf words draw n_words) :
    st ∈ sample_stats words draw := by
  rw [lowfreqOf, select_lowest_frequency] at h
  have h1 := (List.take_sublist _ _).mem h
  have h2 := (List.mem_insertionSort _).mp h1
  exact (List.mem_filter.mp h2).1

theorem mem_unselected_after {words : List WordRow} {claimed : List ℕ} {g : ℕ}
    (h : g ∈ unselected_after words claimed) : g ∉ claimed := by
  rw [unselected_after] at h
  simpa using (List.mem_filter.mp h).2

theorem selected_grp {words : List WordRow} {draw : ℕ → ℕ} {n_words : ℕ}
    (hfun : ∀ r ∈ words, ∀ s ∈ words, r.id = s.id → r.ordgrupp = s.ordgrupp)
    (hdraw : ∀ g ∈ groupsOf words, ∃ r ∈ words, r.ordgrupp = g ∧ r.id = draw g) :
    ∀ i ∈ selectedOf words draw n_words, ∃ σ : InflectionStat,
      σ ∈ sample_stats words draw ∧ σ.id = i ∧
      grpOf words i = some σ.ordgrupp ∧
      (σ ∈ lowsOf words draw n_words ∨ σ ∈ lowfreqOf words draw n_words) := by
  intro i hi
  rw [selectedOf, List.mem_dedup, List.mem_append] at hi
  have hex : ∃ σ : InflectionStat, σ.id = i ∧
      (σ ∈ lowsOf words draw n_words ∨ σ ∈ lowfreqOf words draw n_words) := by
    rcases hi with hi | hi
    · rcases List.mem_map.mp hi with ⟨σ, hσ, rfl⟩
      exact ⟨σ, rfl, Or.inl hσ⟩
    · rcases List.mem_map.mp hi with ⟨σ, hσ, rfl⟩
      exact ⟨σ, rfl, Or.inr hσ⟩
  obtain ⟨σ, hid, hbucket⟩ := hex
  have hσs : σ ∈ sample_stats words draw := by
    rcases hbucket with h | h
    · exact mem_lowsOf h
    · exact mem_lowfreqOf h
  obtain ⟨hg, hdid⟩ := mem_sample_stats hσs
  obtain ⟨r, hrw, hrg, hrid⟩ := hdraw σ.ordgrupp hg
  have hri : r.id = i := by rw [hrid, ← hdid, hid]
  have : grpOf words i = some r.ordgrupp := hri ▸ grpOf_eq hfun hrw
  exact ⟨σ, hσs, hid, by rw [this, hrg], hbucket⟩

theorem dedup_row_fact {words : List WordRow} {draw : ℕ → ℕ} {n_words : ℕ}
    {shuffled : List WordRow}
    (hfun : ∀ r ∈ words, ∀ s ∈ words, r.id = s.id → r.ordgrupp = s.ordgrupp)
    (hshuf : shuffled.Perm (remainingOf words draw n_words)) :
    ∀ r ∈ dedupByGrp shuffled, r ∈ words ∧
      r.ordgrupp ∈ unsel2Of words draw n_words ∧
      grpOf words r.id = some r.ordgrupp := by
  intro r hr
  have h1 : r ∈ shuffled := mem_dedupByGrpAux shuffled [] r hr
  have h2 : r ∈ remainingOf words draw n_words := hshuf.mem_iff.mp h1
  rw [remainingOf] at h2
  have h3 := List.mem_filter.mp h2
  refine ⟨h3.1, by simpa using h3.2, grpOf_eq hfun h3.1⟩

/-! ### The claims. -/

/-- Claim C1, counterexample.  The claim says bucket 1 sorts the filtered
statistics ascending by the pair of mean_score_last_3 and mean_score, the
recent mean first, and that the bucket-1 output is therefore sorted
non-decreasing by that pair.  The code sorts by mean_score alone: on the
two-row table of statA and statB the code selects statA (lowest overall
mean) where the claimed pair sort selects statB (lowest recent mean), and
with words_per_group 2 the code's bucket output is not sorted by the
claimed pair key. -/
theorem c1_pair_sort_counterexample :
    select_lowest_scoring [statA, statB] 1 = [statA] ∧
    select_lowest_scoring_claimed [statA, statB] 1 = [statB] ∧
    statA ≠ statB ∧
    select_lowest_scoring [statA, statB] 2 = [statA, statB] ∧
    ¬ List.Sorted pairLE (select_lowest_scoring [statA, statB] 2) := by
  have h1 : select_lowest_scoring [statA, statB] 1 = [statA] := by
    norm_num [select_lowest_scoring, statA, statB, struggling_filter, optTop,
      List.insertionSort, List.orderedInsert]
  have h2 : select_lowest_scoring_claimed [statA, statB] 1 = [statB] := by
    norm_num [select_lowest_scoring_claimed, statA, statB, struggling_filter,
      pairLE, optTop, List.insertionSort, List.orderedInsert]
  have h4 : select_lowest_scoring [statA, statB] 2 = [statA, statB] := by
    norm_num [select_lowest_scoring, statA, statB, struggling_filter, optTop,
      List.insertionSort, List.orderedInsert]
  have h5 : ¬ pairLE statA statB := by
    norm_num [pairLE, statA, statB, optTop]
  refine ⟨h1, h2, by norm_num [statA, statB], h4, ?_⟩
  rw [h4]
  intro hsorted
  exact h5 (List.rel_of_sorted_cons hsorted statB (List.mem_singleton_self _))

/-- Claim C1, amended.  For every statistics table, the struggling bucket
is computed by filtering to rows whose mean_score_last_3 is defined and
below 1, sorting those rows ascending by mean_score alone (the overall
mean; the recent mean is not a sort key), and taking the first
words_per_group rows; consequently the bucket-1 output is sorted
non-decreasing by mean_score, every returned row comes from the table and
satisfies the filter, and the output length is the minimum of
words_per_group and the number of qualifying rows. -/
theorem c1_bucket1_sorted_by_mean_amended (stats : List InflectionStat)
    (words_per_group : ℕ) :
    List.Sorted (fun a b => optTop a.mean_score ≤ optTop b.mean_score)
      (select_lowest_scoring stats words_per_group) ∧
    (∀ st ∈ select_lowest_scoring stats words_per_group,
      st ∈ stats ∧ ∃ q, st.mean_score_last_3 = some q ∧ q < 1) ∧
    (select_lowest_scoring stats words_per_group).length =
      min words_per_group (stats.filter struggling_filter).length := by
  haveI hT : IsTotal InflectionStat
      (fun a b => optTop a.mean_score ≤ optTop b.mean_score) :=
    ⟨fun a b => le_total _ _⟩
  haveI hTr : IsTrans InflectionStat
      (fun a b => optTop a.mean_score ≤ optTop b.mean_score) :=
    ⟨fun a b c hab hbc => le_trans hab hbc⟩
  refine ⟨?_, ?_, ?_⟩
  · exact List.Pairwise.sublist (List.take_sublist _ _)
      (List.sorted_insertionSort _ _)
  · intro st hst
    have h1 : st ∈ List.insertionSort _ (stats.filter struggling_filter) :=
      (List.take_sublist _ _).mem hst
    have h2 : st ∈ stats.filter struggling_filter :=
      (List.mem_insertionSort _).mp h1
    have h3 := List.mem_filter.mp h2
    refine ⟨h3.1, ?_⟩
    have h4 := h3.2
    unfold struggling_filter at h4
    cases hms : st.mean_score_last_3 with
    | none => rw [hms] at h4; cases h4
    | some q => rw [hms] at h4; exact ⟨q, rfl, by simpa using h4⟩
  · rw [select_lowest_scoring, List.length_take,
      (List.perm_insertionSort _ _).length_eq]

/-- Claim C2.  The claim (and the select_inflection docstring, which
promises the number of times the inflection has been answered) says the
frequency statistic counts the non-null marks whatever their value.  The
code sums the mark values that are 0 or 1 instead, so it counts only the
correct answers: for an inflection answered three times with marks 0, 0, 1
the code yields frequency 1 while the table holds 3 non-null marks. -/
theorem c2_frequency_counts_correct_marks_bug :
    (select_inflection wordsC2 7 1).frequency = 1 ∧
    (wordsC2.filter (fun r => r.betyg.isSome)).length = 3 := by
  constructor
  · norm_num [select_inflection, wordsC2, List.sum_cons]
  · decide

/-- Claim C3.  The claim says a shortfall (fewer candidate word groups than
n_words) never raises.  On wordsC3 there are 3 distinct groups and
n_words = 5, yet the selector raises: sample_size is capped by the number
of remaining rows (4, all of group 3) before deduplication, and sampling 3
ids from the single deduplicated row makes pandas Series.sample throw
ValueError, modelled here as the error value.  The shuffle draw passed in
is the identity permutation of the remaining rows, so the failure is not
an artifact of the draw. -/
theorem c3_shortfall_raises_bug :
    select_game_words wordsC3 drawC3 5 shuffledC3 [31] = Except.error () ∧
    shuffledC3.Perm (remainingOf wordsC3 drawC3 5) ∧
    (wordsC3.map (fun r => r.ordgrupp)).dedup.length = 3 ∧ 3 < 5 := by
  have hstats : sample_stats wordsC3 drawC3 =
      [⟨1, 11, 0, some 0, some 0⟩, ⟨2, 21, 0, none, none⟩,
       ⟨3, 31, 4, some 1, some 1⟩] := by
    norm_num [sample_stats, groupsOf, select_inflection, pandasMean,
      List.insertionSort, List.orderedInsert, optTop, wordsC3, drawC3,
      List.filterMap_cons, List.sum_cons, WithTop.coe_le_coe]
    exact ⟨fun h => (nomatch h), fun h => (nomatch h)⟩
  have hlows : lowsOf wordsC3 drawC3 5 = [⟨1, 11, 0, some 0, some 0⟩] := by
    simp only [lowsOf, hstats]
    norm_num [select_lowest_scoring, struggling_filter, optTop,
      List.insertionSort, List.orderedInsert]
  have hu1 : unsel1Of wordsC3 drawC3 5 = [2, 3, 3, 3, 3] := by
    simp only [unsel1Of, hlows]
    norm_num [unselected_after, wordsC3]
  have hlf : lowfreqOf wordsC3 drawC3 5 = [⟨2, 21, 0, none, none⟩] := by
    simp only [lowfreqOf, hstats, hu1]
    norm_num [select_lowest_frequency, List.insertionSort, List.orderedInsert]
  have hu2 : unsel2Of wordsC3 drawC3 5 = [3, 3, 3, 3] := by
    simp only [unsel2Of, hlows, hlf]
    norm_num [unselected_after, wordsC3]
  have hsel : selectedOf wordsC3 drawC3 5 = [11, 21] := by
    simp only [selectedOf, hlows, hlf]
    norm_num
  refine ⟨?_, List.Perm.refl _, by decide, by decide⟩
  simp only [select_game_words, add_random_words, shuffledC3, remainingOf,
    hu2, hsel]
  norm_num [dedupByGrp, dedupByGrpAux, wordsC3]

/-- Claim C4.  For every catalogue whose inflection ids determine their
word group, every valid per-group sampler draw, every shuffle draw of the
remaining rows and every filler sample, a successful selector output
contains no two inflection ids of the same word group (mapping each output
id to its catalogue group yields a list without duplicates, which also
forces the ids themselves to be pairwise distinct). -/
theorem c4_no_duplicate_groups (words : List WordRow) (draw : ℕ → ℕ)
    (n_words : ℕ) (shuffled : List WordRow) (drawnIds : List ℕ)
    (out : List ℕ)
    (hfun : ∀ r ∈ words, ∀ s ∈ words, r.id = s.id → r.ordgrupp = s.ordgrupp)
    (hdraw : ∀ g ∈ groupsOf words, ∃ r ∈ words, r.ordgrupp = g ∧ r.id = draw g)
    (hshuf : shuffled.Perm (remainingOf words draw n_words))
    (hids : drawnIds.Perm ((dedupByGrp shuffled).map (fun r => r.id)))
    (hok : select_game_words words draw n_words shuffled drawnIds =
      Except.ok out) :
    (out.map (grpOf words)).Nodup := by
  have hstats_nodup : ((sample_stats words draw).map
      (fun r => r.ordgrupp)).Nodup := by
    rw [sample_stats_map_grp]; exact nodup_groupsOf words
  have hA : ((selectedOf words draw n_words).map (grpOf words)).Nodup := by
    refine List.Nodup.map_on ?_ (List.nodup_dedup _)
    intro i hi j hj hij
    obtain ⟨σi, hσis, hσii, hgi, _⟩ := selected_grp hfun hdraw i hi
    obtain ⟨σj, hσjs, hσji, hgj, _⟩ := selected_grp hfun hdraw j hj
    have hgg : σi.ordgrupp = σj.ordgrupp := by
      rw [hgi, hgj] at hij
      exact Option.some.inj hij
    have : σi = σj := List.inj_on_of_nodup_map hstats_nodup hσis hσjs hgg
    rw [← hσii, ← hσji, this]
  have hdg := dedupByGrpAux_grps shuffled []
  have hrows_nodup : (dedupByGrp shuffled).Nodup := List.Nodup.of_map _ hdg.1
  have hB0 : (((dedupByGrp shuffled).map (fun r => r.id)).map
      (grpOf words)).Nodup := by
    rw [List.map_map]
    refine List.Nodup.map_on ?_ hrows_nodup
    intro x hx y hy hxy
    obtain ⟨_, _, hgx⟩ := dedup_row_fact hfun hshuf x hx
    obtain ⟨_, _, hgy⟩ := dedup_row_fact hfun hshuf y hy
    simp only [Function.comp] at hxy
    rw [hgx, hgy] at hxy
    exact List.inj_on_of_nodup_map hdg.1 hx hy (Option.some.inj hxy)
  have hB1 : (drawnIds.map (grpOf words)).Nodup :=
    ((hids.map (grpOf words)).symm).nodup hB0
  have hdisj : ∀ k,
      ((selectedOf words draw n_words).map (grpOf words)).Disjoint
        ((drawnIds.take k).map (grpOf words)) := by
    intro k
    rw [List.disjoint_left]
    intro a ha hb
    rcases List.mem_map.mp ha with ⟨i, hi, rfl⟩
    rcases List.mem_map.mp hb with ⟨j, hj, hgj⟩
    obtain ⟨σ, hσs, hσi, hgi, hbucket⟩ := selected_grp hfun hdraw i hi
    have hjd : j ∈ drawnIds := (List.take_sublist _ _).mem hj
    have hjids : j ∈ (dedupByGrp shuffled).map (fun r => r.id) :=
      hids.mem_iff.mp hjd
    rcases List.mem_map.mp hjids with ⟨r, hrd, rfl⟩
    obtain ⟨_, hru, hgr⟩ := dedup_row_fact hfun hshuf r hrd
    have : σ.ordgrupp = r.ordgrupp := by
      rw [hgi] at hgj
      rw [hgr] at hgj
      exact Option.some.inj hgj.symm
    have hnot := @mem_unselected_after words
      ((lowsOf words draw n_words).map (fun x => x.ordgrupp) ++
        (lowfreqOf words draw n_words).map (fun x => x.ordgrupp)) r.ordgrupp hru
    rw [List.mem_append] at hnot
    push_neg at hnot
    rcases hbucket with hσb | hσb
    · exact hnot.1 (this ▸ List.mem_map_of_mem (fun x => x.ordgrupp) hσb)
    · exact hnot.2 (this ▸ List.mem_map_of_mem (fun x => x.ordgrupp) hσb)
  simp only [select_game_words, add_random_words] at hok
  split at hok
  case isFalse => exact (Except.noConfusion hok)
  case isTrue =>
    injection hok with hout
    subst hout
    rw [List.map_append]
    refine List.Nodup.append hA ?_ (hdisj _)
    exact hB1.sublist (List.Sublist.map _ (List.take_sublist _ _))

/-- Claim C5, counterexample.  The claim says entering the retest takes the
incorrect set duplicated across a fixed 2 rounds with an independent
reshuffle of each round's copy, as the round expander does.  The code
builds the Python expression list(incorrect_answers) * 2: the list
concatenated with itself, consulting no randomness, so it cannot realize
the reshuffle draw that reverses the list in round 0 — a draw the round
expander does realize — and both its rounds always share one order. -/
theorem c5_retest_no_reshuffle_counterexample :
    (create_retest ⟨[], 1, 0, 0⟩ ⟨[5, 7], [], 4, false⟩).1.word_pairs =
      [5, 7, 5, 7] ∧
    return_word_pairs [5, 7] 2 revFirstShuffle = [7, 5, 7, 5] ∧
    (∀ i m, (revFirstShuffle i m).Perm m) ∧
    ([5, 7, 5, 7] : List ℕ) ≠ [7, 5, 7, 5] := by
  refine ⟨by decide, by decide, ?_, by decide⟩
  intro i m
  rw [revFirstShuffle]
  split
  · exact List.reverse_perm m
  · exact List.Perm.refl m

/-- Claim C5, amended.  For every session state, entering the retest resets
the question index to 0, sets the retest flag, replaces the word list with
the incorrect set concatenated with itself — a fixed 2 rounds in one and
the same order, with no reshuffle — and updates total_questions to the new
list's length (and questions_per_round to its half). -/
theorem c5_retest_amended (s : Settings) (st : Status) :
    (create_retest s st).2.question_number = 0 ∧
    (create_retest s st).2.retest = true ∧
    (create_retest s st).1.word_pairs =
      st.incorrect_answers ++ st.incorrect_answers ∧
    (create_retest s st).1.n_rounds = 2 ∧
    (create_retest s st).1.total_questions =
      2 * st.incorrect_answers.length ∧
    (create_retest s st).1.questions_per_round =
      st.incorrect_answers.length := by
  simp [create_retest, settings_set_up_retest, set_question_stats,
    status_set_up_retest]
  omega

/-- Claim C6.  For every sequence of answer submissions from a state whose
incorrect set has no duplicates, the incorrect set still has no duplicates
afterwards; a single submission appends exactly its mark row to the
pending marks when the retest flag is off, leaves both the marks and the
incorrect set unchanged when it is on, and can only change the incorrect
set on an incorrect answer outside a retest. -/
theorem c6_incorrect_set_and_marks (st : Status)
    (steps : List (ℕ × Bool × ℕ × ℚ))
    (h : st.incorrect_answers.Nodup) :
    (run_submissions st steps).incorrect_answers.Nodup ∧
    (∀ (w : ℕ) (c : Bool) (d : ℕ) (t : ℚ),
      (st.retest = false → (submit_answer st w c d t).marks =
        st.marks ++ [⟨w, if c then 1 else 0, d, t⟩]) ∧
      (st.retest = true → (submit_answer st w c d t).marks = st.marks ∧
        (submit_answer st w c d t).incorrect_answers =
          st.incorrect_answers) ∧
      ((submit_answer st w c d t).incorrect_answers ≠ st.incorrect_answers →
        st.retest = false ∧ c = false)) := by
  refine ⟨run_submissions_nodup steps st h, ?_⟩
  intro w c d t
  refine ⟨?_, ?_, ?_⟩
  · intro hr
    simp only [submit_answer, move_to_next, check_answer,
      record_incorrect_answer, add_mark, hr]
    cases c <;> simp
  · intro hr
    simp only [submit_answer, move_to_next, check_answer,
      record_incorrect_answer, add_mark, hr]
    cases c <;> simp [hr]
  · intro hne
    by_cases hr : st.retest
    · exfalso
      apply hne
      simp only [submit_answer, move_to_next, check_answer,
        record_incorrect_answer, add_mark, hr]
      cases c <;> simp [hr]
    · refine ⟨by simpa using hr, ?_⟩
      by_contra hc
      apply hne
      have hc' : c = true := by simpa using hc
      simp [submit_answer, move_to_next, check_answer, add_mark, hc', hr]

/-- Witness for claim C6: two identical incorrect submissions from a fresh
state leave the incorrect set duplicate-free, and one submission outside a
retest appends exactly one mark row. -/
theorem c6_incorrect_set_and_marks_witness :
    (run_submissions ⟨[], [], 0, false⟩
      [(4, false, 1, 0), (4, false, 1, 1)]).incorrect_answers.Nodup ∧
    (submit_answer ⟨[], [], 0, false⟩ 4 false 1 0).marks = [⟨4, 0, 1, 0⟩] := by
  refine ⟨(c6_incorrect_set_and_marks _ _ (by decide)).1, ?_⟩
  have h := ((c6_incorrect_set_and_marks (⟨[], [], 0, false⟩ : Status)
    [] (by decide)).2 4 false 1 0).1 rfl
  simpa using h

/-- Claim C7, counterexample.  The claim says format_text removes exactly
the characters that are not a letter, digit, space or dash; Python's word
class also keeps the underscore, so the code maps "a_b" to itself while
the claimed normalization maps it to "ab". -/
theorem c7_underscore_counterexample :
    format_text "a_b" = "a_b" ∧ format_text_claimed "a_b" = "ab" ∧
    ("a_b" : String) ≠ "ab" := by
  exact ⟨by decide, by decide, by decide⟩

/-- Claim C7, amended.  For every input string, format_text removes exactly
the characters outside Python's word class (letters, digits, underscore
and a few Latin-1 alphanumeric signs) together with space and dash,
collapses every run of whitespace to a single space (no two adjacent
spaces survive), lower-cases, and strips leading and trailing spaces; in
particular " Run   fast! " normalizes to "run fast". -/
theorem c7_format_text_amended (s : String) :
    (∀ c ∈ (format_text s).toList, keepChar c = true) ∧
    (format_text s).toList.Chain' (fun a b => ¬(a.toNat = 32 ∧ b.toNat = 32)) ∧
    (∀ a, (format_text s).toList.head? = some a → a.toNat ≠ 32) ∧
    (∀ a, (format_text s).toList.getLast? = some a → a.toNat ≠ 32) ∧
    format_text " Run   fast! " = "run fast" := by
  have htl : (format_text s).toList =
      stripSpaces ((collapseSpaces (s.toList.filter keepChar)).map pyLower) :=
    rfl
  refine ⟨?_, ?_, ?_, ?_, by decide⟩
  · intro c hc
    rw [htl] at hc
    have h2 := mem_stripSpaces hc
    rcases List.mem_map.mp h2 with ⟨c', hc', rfl⟩
    have h3 := mem_collapseSpaces hc'
    exact keepChar_pyLower c' (List.of_mem_filter h3)
  · rw [htl]
    refine chain'_stripSpaces ?_
    rw [List.chain'_map]
    refine (chain'_collapseSpaces _).imp ?_
    intro a b hab h2
    exact hab ⟨(pyLower_toNat_32 a).mp h2.1, (pyLower_toNat_32 b).mp h2.2⟩
  · intro a ha
    rw [htl] at ha
    exact head?_stripSpaces _ a ha
  · intro a ha
    rw [htl] at ha
    exact getLast?_stripSpaces _ a ha

/-- Claim C8.  For every non-empty word list, every number of rounds at
least 1 and every shuffle draw that permutes its input, the round
expander's output splits into exactly n_rounds blocks, each a permutation
of the resolved word list, and its total length is the word count times
the number of rounds. -/
theorem c8_round_expander {α : Type} (round_words : List α) (n_rounds : ℕ)
    (shuffle : ℕ → List α → List α)
    (hs : ∀ i m, (shuffle i m).Perm m) (hn : 1 ≤ n_rounds)
    (hne : round_words ≠ []) :
    (return_word_pairs round_words n_rounds shuffle).length =
      round_words.length * n_rounds ∧
    ∃ rounds : List (List α),
      return_word_pairs round_words n_rounds shuffle = rounds.flatten ∧
      rounds.length = n_rounds ∧ ∀ r ∈ rounds, r.Perm round_words := by
  obtain ⟨rounds, h1, h2, h3⟩ :=
    expandFrom_parts shuffle hs n_rounds 0 round_words
  refine ⟨?_, rounds, h1, h2, h3⟩
  rw [return_word_pairs] at *
  rw [h1, join_length_of_perms round_words rounds h3, h2, Nat.mul_comm]

/-- Witness for claim C8: three words over two rounds with a reversing
first-round shuffle yield six session words. -/
theorem c8_round_expander_witness :
    (return_word_pairs [1, 2, 3] 2 revFirstShuffle).length = 3 * 2 :=
  (c8_round_expander [1, 2, 3] 2 revFirstShuffle
    (fun i m => by
      rw [revFirstShuffle]
      split
      · exact List.reverse_perm m
      · exact List.Perm.refl m)
    (by decide) (by decide)).1

/-- Claim C9.  Committing marks appends the buffered rows to the stored
marks table and leaves the in-memory Status unchanged — in particular the
marks list is not cleared, so committing the same Status twice appends the
same rows twice. -/
theorem c9_commit_preserves_buffer (db : List MarkRecord) (st : Status) :
    (commit_marks_to_database db st).2 = st ∧
    (commit_marks_to_database db st).1 = db ++ st.marks ∧
    (commit_marks_to_database (commit_marks_to_database db st).1
        (commit_marks_to_database db st).2).1 =
      db ++ st.marks ++ st.marks ∧
    (commit_marks_to_database (commit_marks_to_database db st).1
        (commit_marks_to_database db st).2).2.marks = st.marks := by
  simp [commit_marks_to_database]

/-- Claim C10.  The random filler draws from the catalogue rows of the
unclaimed groups, not from the sampled statistics: on wordsC10 the sampler
chose inflection 31 for the unclaimed group 3, yet with a shuffle draw
that puts the row of inflection 32 first the selector output contains
id 32 — an inflection id of an unclaimed group different from the id the
sampler chose for that group. -/
theorem c10_filler_from_catalogue :
    select_game_words wordsC10 drawC10 3 shuffledC10 [32] =
      Except.ok [11, 21, 32] ∧
    (sample_stats wordsC10 drawC10).map (fun r => r.id) = [11, 21, 31] ∧
    shuffledC10.Perm (remainingOf wordsC10 drawC10 3) ∧
    ([32] : List ℕ).Perm ((dedupByGrp shuffledC10).map (fun r => r.id)) ∧
    grpOf wordsC10 32 = some 3 ∧ grpOf wordsC10 31 = some 3 ∧
    (31 : ℕ) ≠ 32 ∧
    3 ∉ (lowsOf wordsC10 drawC10 3).map (fun r => r.ordgrupp) ∧
    3 ∉ (lowfreqOf wordsC10 drawC10 3).map (fun r => r.ordgrupp) := by
  have hstats : sample_stats wordsC10 drawC10 =
      [⟨1, 11, 0, some 0, some 0⟩, ⟨2, 21, 0, none, none⟩,
       ⟨3, 31, 1, some 1, some 1⟩] := by
    norm_num [sample_stats, groupsOf, select_inflection, pandasMean,
      List.insertionSort, List.orderedInsert, optTop, wordsC10, drawC10,
      List.filterMap_cons, List.sum_cons, WithTop.coe_le_coe]
    exact ⟨fun h => (nomatch h), fun h => (nomatch h)⟩
  have hlows : lowsOf wordsC10 drawC10 3 = [⟨1, 11, 0, some 0, some 0⟩] := by
    simp only [lowsOf, hstats]
    norm_num [select_lowest_scoring, struggling_filter, optTop,
      List.insertionSort, List.orderedInsert]
  have hu1 : unsel1Of wordsC10 drawC10 3 = [2, 3, 3] := by
    simp only [unsel1Of, hlows]
    norm_num [unselected_after, wordsC10]
  have hlf : lowfreqOf wordsC10 drawC10 3 = [⟨2, 21, 0, none, none⟩] := by
    simp only [lowfreqOf, hstats, hu1]
    norm_num [select_lowest_frequency, List.insertionSort, List.orderedInsert]
  have hu2 : unsel2Of wordsC10 drawC10 3 = [3, 3] := by
    simp only [unsel2Of, hlows, hlf]
    norm_num [unselected_after, wordsC10]
  have hsel : selectedOf wordsC10 drawC10 3 = [11, 21] := by
    simp only [selectedOf, hlows, hlf]
    norm_num
  have hrem : remainingOf wordsC10 drawC10 3 =
      [⟨31, 3, some 1, some 1⟩, ⟨32, 3, some 1, some 2⟩] := by
    simp only [remainingOf, hu2]
    norm_num [wordsC10]
  refine ⟨?_, by simp [hstats], by rw [hrem]; exact List.Perm.swap _ _ _,
    by norm_num [dedupByGrp, dedupByGrpAux], by decide, by decide, by decide,
    by simp [hlows], by simp [hlf]⟩
  simp only [select_game_words, add_random_words, remainingOf, hu2, hsel]
  norm_num [dedupByGrp, dedupByGrpAux, wordsC10, shuffledC10]

/-- Witness for claim C4: on the concrete catalogue wordsC4w with the
identity shuffle draw, the selector output is the ids 11, 21, 31, and
mapping them to their word groups yields no duplicate. -/
theorem c4_no_duplicate_groups_witness :
    (([11, 21, 31] : List ℕ).map (grpOf wordsC4w)).Nodup := by
  have hstats : sample_stats wordsC4w drawC4w =
      [⟨1, 11, 0, some 0, some 0⟩, ⟨2, 21, 0, none, none⟩,
       ⟨3, 31, 1, some 1, some 1⟩] := by
    norm_num [sample_stats, groupsOf, select_inflection, pandasMean,
      List.insertionSort, List.orderedInsert, optTop, wordsC4w, drawC4w,
      List.filterMap_cons, List.sum_cons, WithTop.coe_le_coe]
    exact ⟨fun h => (nomatch h), fun h => (nomatch h)⟩
  have hlows : lowsOf wordsC4w drawC4w 3 = [⟨1, 11, 0, some 0, some 0⟩] := by
    simp only [lowsOf, hstats]
    norm_num [select_lowest_scoring, struggling_filter, optTop,
      List.insertionSort, List.orderedInsert]
  have hu1 : unsel1Of wordsC4w drawC4w 3 = [2, 3, 3] := by
    simp only [unsel1Of, hlows]
    norm_num [unselected_after, wordsC4w]
  have hlf : lowfreqOf wordsC4w drawC4w 3 = [⟨2, 21, 0, none, none⟩] := by
    simp only [lowfreqOf, hstats, hu1]
    norm_num [select_lowest_frequency, List.insertionSort, List.orderedInsert]
  have hu2 : unsel2Of wordsC4w drawC4w 3 = [3, 3] := by
    simp only [unsel2Of, hlows, hlf]
    norm_num [unselected_after, wordsC4w]
  have hsel : selectedOf wordsC4w drawC4w 3 = [11, 21] := by
    simp only [selectedOf, hlows, hlf]
    norm_num
  have hrem : remainingOf wordsC4w drawC4w 3 =
      [⟨31, 3, some 1, some 1⟩, ⟨32, 3, some 1, some 2⟩] := by
    simp only [remainingOf, hu2]
    norm_num [wordsC4w]
  have hok : select_game_words wordsC4w drawC4w 3 shuffledC4w [31] =
      Except.ok [11, 21, 31] := by
    simp only [select_game_words, add_random_words, shuffledC4w, remainingOf,
      hu2, hsel]
    norm_num [dedupByGrp, dedupByGrpAux, wordsC4w]
  have hids : ([31] : List ℕ).Perm
      ((dedupByGrp shuffledC4w).map (fun r => r.id)) := by
    have hsh : shuffledC4w = [⟨31, 3, some 1, some 1⟩, ⟨32, 3, some 1, some 2⟩] :=
      hrem
    rw [hsh]
    decide
  exact c4_no_duplicate_groups wordsC4w drawC4w 3 shuffledC4w [31] [11, 21, 31]
    (by decide) (by decide) (List.Perm.refl _) hids hok
